import Mathlib

/-!
Verification of the berlewelch-web demonstration: a Berlekamp-Welch
error-correcting encoder/decoder over GF(67) together with the UI state
transitions of its single-page front end (src/main.rs).

The front end (alphabet mapping, validation, state handlers) is embedded
directly from src/main.rs.  The core library crate (field type Gfe<67>,
encode, decode) is not part of this repository's sources; those
definitions are modelled from the specification (sections 4.1-4.3) and
are marked as such in their doc comments.
-/

namespace Berlewelch

instance fact_prime_67 : Fact (Nat.Prime 67) := ⟨by norm_num⟩

/-- Field of 67 elements: the integers modulo the fixed prime 67.
Modelled from the spec: the crate's Gfe<67> type, exact arithmetic over
the integers modulo a fixed prime, every stored value reduced into
[0, 67). -/
abbrev F : Type := ZMod 67

/-- Modelled from the spec: field inverse via Fermat's little theorem
(a^(p-2) mod p), one of the two implementations the spec sanctions.
Sends 0 to 0 (the spec treats inverse of 0 as a failure that never
occurs in the algorithm). -/
def gfeInv (a : F) : F := a ^ (65 : Nat)

/-- Modelled from the spec: div(a, b) = mul(a, inverse(b)). -/
def gfeDiv (a b : F) : F := a * gfeInv b

/-- Horner evaluation of a polynomial given by its little-endian
coefficient list (coefficient i multiplies x^i). -/
def polyEval (coeffs : List F) (x : F) : F :=
  coeffs.foldr (fun a acc => a + x * acc) 0

/-- Error taxonomy of the spec (section 7). -/
inductive Err : Type where
  | invalidFieldElement : Err
  | redundancyTooLarge : Err
  | uncorrectable : Err
  | divisionByZero : Err
deriving DecidableEq

instance except_decEq {ε α : Type} [DecidableEq ε] [DecidableEq α] :
    DecidableEq (Except ε α) := fun a b =>
  match a, b with
  | Except.ok x, Except.ok y =>
    if h : x = y then isTrue (by rw [h]) else isFalse (by intro hc; injection hc; tauto)
  | Except.error x, Except.error y =>
    if h : x = y then isTrue (by rw [h]) else isFalse (by intro hc; injection hc; tauto)
  | Except.ok _, Except.error _ => isFalse (by intro hc; injection hc)
  | Except.error _, Except.ok _ => isFalse (by intro hc; injection hc)

/-- Modelled from the spec: the crate's encode.  Treat the message as the
coefficient list of a polynomial M of degree < k and evaluate it at the
n = k + 2e points x = 0, 1, ..., n-1.  An empty message yields an empty
result (no redundancy is generated).  When n exceeds the field size 67
there are not enough distinct evaluation points and encode signals
RedundancyTooLarge. -/
def encode (e : Nat) (msg : List F) : Except Err (List F) :=
  if msg.isEmpty then Except.ok []
  else if 67 < msg.length + 2 * e then Except.error Err.redundancyTooLarge
  else Except.ok ((List.range (msg.length + 2 * e)).map fun i : Nat => polyEval msg (Nat.cast i))

/-- Dot product of two coefficient vectors of equal length. -/
def dot (xs ys : List F) : F := (List.zipWith (fun a b => a * b) xs ys).sum

/-- One linear equation: coefficient row and right-hand side. -/
abbrev Row : Type := List F × F

/-- Find the first row whose leading coefficient is nonzero and return
it together with the remaining rows in their original order. -/
def extractPivot : List Row → Option (Row × List Row)
  | [] => none
  | r :: rs =>
    if r.1.headD 0 ≠ 0 then some (r, rs)
    else
      match extractPivot rs with
      | some (p, rest) => some (p, r :: rest)
      | none => none

/-- Subtract the right multiple of the pivot row from a row so that its
leading coefficient vanishes, and drop that leading zero. -/
def elimRow (p r : Row) : Row :=
  match p, r with
  | (a :: ps, pb), (b :: rs, rb) =>
    let f := gfeDiv b a
    (List.zipWith (fun x y => x - f * y) rs ps, rb - f * pb)
  | _, r => (r.1.tail, r.2)

/-- Modelled from the spec: Gaussian elimination with pivoting on
nonzero entries over the prime field, solving column by column.  A
column with no available pivot corresponds to a free variable, which is
set to 0.  Returns a solution of the system when one exists and fails
exactly when the system is inconsistent. -/
def solveSystem : Nat → List Row → Option (List F)
  | 0, rows => if rows.all (fun r => r.2 = 0) then some [] else none
  | c + 1, rows =>
    match extractPivot rows with
    | none =>
      (solveSystem c (rows.map fun r => (r.1.tail, r.2))).map fun xs => 0 :: xs
    | some (p, rest) =>
      (solveSystem c (rest.map (elimRow p))).map fun xs =>
        gfeDiv (p.2 - dot p.1.tail xs) (p.1.headD 0) :: xs

/-- One Berlekamp-Welch equation at evaluation point xi with received
value yi: the unknowns are the ke coefficients of Q followed by the e
low coefficients of the monic error locator E (leading coefficient
fixed to 1), and the equation states Q(xi) = yi * E(xi). -/
def bwRow (ke e : Nat) (xi yi : F) : Row :=
  ((List.range ke).map (fun j => xi ^ j) ++
     (List.range e).map (fun j => -(yi * xi ^ j)),
   yi * xi ^ e)

/-- Modelled from the spec: the n-by-n Berlekamp-Welch linear system for
a received codeword, one equation per evaluation point x = 0..n-1. -/
def bwSystem (e : Nat) (c : List F) : List Row :=
  List.zipWith (fun (i : Nat) (yi : F) => bwRow (c.length - 2 * e + e) e (Nat.cast i) yi)
    (List.range c.length) c

/-- Long division of a big-endian coefficient list by a monic divisor
whose big-endian tail (the coefficients after the leading 1) is dtail.
The fuel argument is the number of quotient digits to produce; returns
the big-endian quotient and the remainder. -/
def longDiv (dtail : List F) : Nat → List F → List F × List F
  | 0, r => ([], r)
  | _ + 1, [] => ([], [])
  | n + 1, c :: rest =>
    let rest2 :=
      List.zipWith (fun x y => x - c * y) (rest.take dtail.length) dtail ++
        rest.drop dtail.length
    let res := longDiv dtail n rest2
    (c :: res.1, res.2)

/-- Modelled from the spec: the crate's Berlekamp-Welch decode.  Given
the error budget e and a received codeword of length n, let k = n - 2e,
build the linear system for the numerator polynomial Q (degree
<= k+e-1) and monic error locator E (degree e), solve it by Gaussian
elimination, and divide Q by E.  Decoding fails when the system is
inconsistent or the division leaves a nonzero remainder; a codeword
shorter than 2e is a precondition failure.  On success the quotient's
k coefficients are the recovered message. -/
def decode (e : Nat) (c : List F) : Option (List F) :=
  if c.length < 2 * e then none
  else
    let k := c.length - 2 * e
    match solveSystem (k + 2 * e) (bwSystem e c) with
    | none => none
    | some z =>
      let q := z.take (k + e)
      let eps := z.drop (k + e)
      let res := longDiv eps.reverse k q.reverse
      if res.2.all (fun x => x = 0) then some res.1.reverse else none

/-- Embedded from src/main.rs: clamp. -/
def clamp (number min max : Int) : Int :=
  if number < min then min
  else if number > max then max
  else number

/-- Embedded from src/main.rs: the character test used by
is_valid_message, mirroring Rust's char::is_ascii_alphanumeric. -/
def is_ascii_alphanumeric (c : Char) : Bool :=
  ('a' ≤ c && c ≤ 'z') || ('A' ≤ c && c ≤ 'Z') || ('0' ≤ c && c ≤ '9')

/-- Embedded from src/main.rs: the per-character closure inside
is_valid_message. -/
def is_valid_char (c : Char) : Bool :=
  is_ascii_alphanumeric c || c = '_' || c = '-' || c = '.' || c = ',' || c = '/'

/-- Embedded from src/main.rs: is_valid_message. -/
def is_valid_message (s : List Char) : Bool :=
  !s.isEmpty && s.all is_valid_char

/-- Embedded from src/main.rs: the per-character mapping inside
str_to_c67.  The Rust code panics on a character outside the alphabet;
that panic is modelled as none. -/
def charToF (c : Char) : Option F :=
  if c = '_' then some 62
  else if c = '-' then some 63
  else if c = '.' then some 64
  else if c = ',' then some 65
  else if c = '/' then some 66
  else if 'a' ≤ c ∧ c ≤ 'z' then some ((c.toNat - 'a'.toNat : Nat) : F)
  else if 'A' ≤ c ∧ c ≤ 'Z' then some ((c.toNat - 'A'.toNat + 26 : Nat) : F)
  else if '0' ≤ c ∧ c ≤ '9' then some ((c.toNat - '0'.toNat + 52 : Nat) : F)
  else none

/-- Embedded from src/main.rs: str_to_c67, the character-by-character
mapping of a string into field elements; a character outside the
alphabet is a panic in the Rust code, modelled as none. -/
def str_to_c67 : List Char → Option (List F)
  | [] => some []
  | c :: s =>
    match charToF c, str_to_c67 s with
    | some x, some v => some (x :: v)
    | _, _ => none

/-- Embedded from src/main.rs: the per-element mapping inside
c67_to_str.  Every field element has a value in [0, 67), so the Rust
unreachable branch needs no counterpart. -/
def fToChar (x : F) : Char :=
  if x.val = 62 then '_'
  else if x.val = 63 then '-'
  else if x.val = 64 then '.'
  else if x.val = 65 then ','
  else if x.val = 66 then '/'
  else if x.val < 26 then Char.ofNat (x.val + 'a'.toNat)
  else if x.val < 52 then Char.ofNat (x.val - 26 + 'A'.toNat)
  else Char.ofNat (x.val - 52 + '0'.toNat)

/-- Embedded from src/main.rs: c67_to_str. -/
def c67_to_str (v : List F) : List Char := v.map fToChar

/-- Embedded from src/main.rs: my_encode.  The panic of str_to_c67 on a
character outside the alphabet is modelled as an InvalidFieldElement
failure; it is unreachable from the handlers, which validate first. -/
def my_encode (e : Nat) (s : List Char) : Except Err (List Char) :=
  match str_to_c67 s with
  | none => Except.error Err.invalidFieldElement
  | some c =>
    match encode e c with
    | Except.ok v => Except.ok (c67_to_str v)
    | Except.error err => Except.error err

/-- Embedded from src/main.rs: my_decode.  The crate's decode overwrites
the first n - 2e entries of the codeword in place with the recovered
message; the Rust wrapper then converts the slice up to length n - 2e
back to a string.  The in-place buffer is modelled as the recovered
message followed by the untouched suffix of the codeword. -/
def my_decode (e : Nat) (s : List Char) : Except Unit (List Char) :=
  match str_to_c67 s with
  | none => Except.error ()
  | some c =>
    match decode e c with
    | none => Except.error ()
    | some m =>
      let c2 := m ++ c.drop m.length
      Except.ok (c67_to_str (c2.take (c2.length - 2 * e)))

/-- Embedded from src/main.rs: the UI store. -/
structure State : Type where
  errors : Int
  original : List Char
  encoded : List Char
  is_error : Bool
  hack : Bool
deriving DecidableEq

/-- Embedded from src/main.rs: Default for State. -/
def State.default : State :=
  { errors := 2, original := [], encoded := [], is_error := false, hack := false }

/-- Embedded from src/main.rs: the oninput handler of the original
message field.  The stored error budget lies in [1, 50] in every
reachable state, so the i32-to-usize cast is the plain value; a failure
of my_encode (a panic in the Rust code, which has no error path here)
is modelled as none. -/
def on_original_change (st : State) (new : List Char) : Option State :=
  if !new.isEmpty && !is_valid_message new then
    some { st with hack := !st.hack }
  else
    match (if new.isEmpty then Except.ok [] else my_encode st.errors.toNat new) with
    | Except.ok encoded =>
      some { st with original := new, encoded := encoded, is_error := false }
    | Except.error _ => none

/-- Embedded from src/main.rs: the oninput handler of the encoded
message field. -/
def on_encoded_change (st : State) (new : List Char) : State :=
  if !is_valid_message new then
    { st with hack := !st.hack }
  else
    match my_decode st.errors.toNat new with
    | Except.ok decoded =>
      { st with original := decoded, is_error := false, encoded := new }
    | Except.error _ =>
      { st with original := [], is_error := true, encoded := new }

/-- Embedded from src/main.rs: the onchange handler of the max-errors
number input.  The result of Rust's str::parse::<i32> on the raw field
text is taken as an Option Int argument; re-encoding an over-budget
original (a panic in the Rust code) is modelled as none. -/
def errors_input (st : State) (parsed : Option Int) : Option State :=
  let st1 :=
    { st with
      errors := (parsed.map fun x => clamp x 1 50).getD st.errors,
      hack := !st.hack }
  if st1.is_error then some st1
  else
    match (if st1.original.isEmpty then Except.ok []
           else my_encode st1.errors.toNat st1.original) with
    | Except.ok encoded => some { st1 with encoded := encoded, is_error := false }
    | Except.error _ => none

/-- Number of positions at which two equal-length sequences differ. -/
def diffCount {α : Type} [DecidableEq α] (xs ys : List α) : Nat :=
  (List.zipWith (fun a b => if a = b then 0 else 1) xs ys).sum

/-- Proof-layer bridge: the polynomial denoted by a little-endian
coefficient list. -/
noncomputable def toPoly (l : List F) : Polynomial F :=
  l.foldr (fun a p => Polynomial.C a + Polynomial.X * p) 0

/-- Proof-layer bridge: the polynomial denoted by a big-endian
coefficient list, as used by the long-division routine. -/
noncomputable def toPolyBE (l : List F) : Polynomial F := toPoly l.reverse

/-- A vector satisfies one linear equation. -/
def rowSat (x : List F) (r : Row) : Prop := dot r.1 x = r.2

/-! ### Helper lemmas: the alphabet bijection -/

lemma char_eq_of_toNat_eq {c d : Char} (h : c.toNat = d.toNat) : c = d := by
  have h2 := congrArg Char.ofNat h
  rwa [Char.ofNat_toNat, Char.ofNat_toNat] at h2

lemma charToF_fToChar : ∀ x : F, charToF (fToChar x) = some x := by decide

lemma toNat_a : 'a'.toNat = 97 := rfl
lemma toNat_A : 'A'.toNat = 65 := rfl
lemma toNat_zero : '0'.toNat = 48 := rfl

lemma fToChar_charToF {c : Char} {x : F} (h : charToF c = some x) : fToChar x = c := by
  unfold charToF at h
  split_ifs at h with h1 h2 h3 h4 h5 h6 h7 h8
  · injection h with h; subst h; rw [h1]; rfl
  · injection h with h; subst h; rw [h2]; rfl
  · injection h with h; subst h; rw [h3]; rfl
  · injection h with h; subst h; rw [h4]; rfl
  · injection h with h; subst h; rw [h5]; rfl
  · injection h with h; subst h
    have hb1 : 97 ≤ c.toNat := h6.1
    have hb2 : c.toNat ≤ 122 := h6.2
    rw [toNat_a]
    have hval : (((c.toNat - 97 : Nat) : F)).val = c.toNat - 97 := by
      rw [ZMod.val_natCast]; exact Nat.mod_eq_of_lt (by omega)
    unfold fToChar
    rw [hval, if_neg (by omega), if_neg (by omega), if_neg (by omega),
      if_neg (by omega), if_neg (by omega), if_pos (by omega), toNat_a]
    have h9 : c.toNat - 97 + 97 = c.toNat := by omega
    rw [h9, Char.ofNat_toNat]
  · injection h with h; subst h
    have hb1 : 65 ≤ c.toNat := h7.1
    have hb2 : c.toNat ≤ 90 := h7.2
    rw [toNat_A]
    have hval : (((c.toNat - 65 + 26 : Nat) : F)).val = c.toNat - 65 + 26 := by
      rw [ZMod.val_natCast]; exact Nat.mod_eq_of_lt (by omega)
    unfold fToChar
    rw [hval, if_neg (by omega), if_neg (by omega), if_neg (by omega),
      if_neg (by omega), if_neg (by omega), if_neg (by omega), if_pos (by omega), toNat_A]
    have h9 : c.toNat - 65 + 26 - 26 + 65 = c.toNat := by omega
    rw [h9, Char.ofNat_toNat]
  · injection h with h; subst h
    have hb1 : 48 ≤ c.toNat := h8.1
    have hb2 : c.toNat ≤ 57 := h8.2
    rw [toNat_zero]
    have hval : (((c.toNat - 48 + 52 : Nat) : F)).val = c.toNat - 48 + 52 := by
      rw [ZMod.val_natCast]; exact Nat.mod_eq_of_lt (by omega)
    unfold fToChar
    rw [hval, if_neg (by omega), if_neg (by omega), if_neg (by omega),
      if_neg (by omega), if_neg (by omega), if_neg (by omega), if_neg (by omega), toNat_zero]
    have h9 : c.toNat - 48 + 52 - 52 + 48 = c.toNat := by omega
    rw [h9, Char.ofNat_toNat]

lemma charToF_isSome {c : Char} (h : is_valid_char c = true) : ∃ x, charToF c = some x := by
  unfold is_valid_char is_ascii_alphanumeric at h
  unfold charToF
  split_ifs with h1 h2 h3 h4 h5 h6 h7 h8
  · exact ⟨_, rfl⟩
  · exact ⟨_, rfl⟩
  · exact ⟨_, rfl⟩
  · exact ⟨_, rfl⟩
  · exact ⟨_, rfl⟩
  · exact ⟨_, rfl⟩
  · exact ⟨_, rfl⟩
  · exact ⟨_, rfl⟩
  · simp only [Bool.or_eq_true, Bool.and_eq_true, decide_eq_true_eq] at h
    rcases h with ((⟨u1, u2⟩ | ⟨u1, u2⟩ | ⟨u1, u2⟩) | u | u | u | u | u) <;>
      simp_all

lemma str_to_c67_length : ∀ {s : List Char} {v : List F},
    str_to_c67 s = some v → v.length = s.length := by
  intro s
  induction s with
  | nil => intro v h; injection h with h; subst h; rfl
  | cons c s ih =>
    intro v h
    unfold str_to_c67 at h
    cases hx : charToF c with
    | none => rw [hx] at h; cases h
    | some x =>
      rw [hx] at h
      cases hv : str_to_c67 s with
      | none => rw [hv] at h; cases h
      | some w =>
        rw [hv] at h
        injection h with h; subst h
        simp [ih hv]

lemma str_to_c67_isSome : ∀ {s : List Char},
    (∀ c ∈ s, is_valid_char c = true) → ∃ v, str_to_c67 s = some v := by
  intro s
  induction s with
  | nil => exact fun _ => ⟨[], rfl⟩
  | cons c s ih =>
    intro h
    obtain ⟨x, hx⟩ := charToF_isSome (h c (by simp))
    obtain ⟨v, hv⟩ := ih fun d hd => h d (by simp [hd])
    exact ⟨x :: v, by unfold str_to_c67; rw [hx, hv]⟩

lemma c67_to_str_str_to_c67 : ∀ {s : List Char} {v : List F},
    str_to_c67 s = some v → c67_to_str v = s := by
  intro s
  induction s with
  | nil => intro v h; injection h with h; subst h; rfl
  | cons c s ih =>
    intro v h
    unfold str_to_c67 at h
    cases hx : charToF c with
    | none => rw [hx] at h; cases h
    | some x =>
      rw [hx] at h
      cases hv : str_to_c67 s with
      | none => rw [hv] at h; cases h
      | some w =>
        rw [hv] at h
        injection h with h; subst h
        show fToChar x :: c67_to_str w = c :: s
        rw [fToChar_charToF hx, ih hv]

lemma str_to_c67_c67_to_str : ∀ v : List F, str_to_c67 (c67_to_str v) = some v := by
  intro v
  induction v with
  | nil => rfl
  | cons x v ih =>
    show str_to_c67 (fToChar x :: c67_to_str v) = some (x :: v)
    unfold str_to_c67
    rw [charToF_fToChar, ih]

lemma c67_to_str_length (v : List F) : (c67_to_str v).length = v.length :=
  List.length_map v fToChar

lemma is_valid_message_chars {s : List Char} (h : is_valid_message s = true) :
    ∀ c ∈ s, is_valid_char c = true := by
  have h2 : s.all is_valid_char = true := by
    unfold is_valid_message at h
    exact (Bool.and_eq_true _ _ |>.mp h).2
  simpa [List.all_eq_true] using h2

lemma is_valid_message_ne_nil {s : List Char} (h : is_valid_message s = true) : s ≠ [] := by
  intro hs
  subst hs
  cases h

/-! ### Helper lemmas: sizes produced by the solver and the division -/

lemma solveSystem_length : ∀ (c : Nat) (rows : List Row) (xs : List F),
    solveSystem c rows = some xs → xs.length = c := by
  intro c
  induction c with
  | zero =>
    intro rows xs h
    unfold solveSystem at h
    split_ifs at h
    injection h with h; subst h; rfl
  | succ c ih =>
    intro rows xs h
    unfold solveSystem at h
    cases hp : extractPivot rows with
    | none =>
      rw [hp] at h
      dsimp only at h
      cases hrec : solveSystem c (rows.map fun r => (r.1.tail, r.2)) with
      | none => rw [hrec] at h; cases h
      | some ys =>
        rw [hrec] at h
        injection h with h; subst h
        simp [ih _ _ hrec]
    | some pr =>
      obtain ⟨p, rest⟩ := pr
      rw [hp] at h
      dsimp only at h
      cases hrec : solveSystem c (rest.map (elimRow p)) with
      | none => rw [hrec] at h; cases h
      | some ys =>
        rw [hrec] at h
        injection h with h; subst h
        simp [ih _ _ hrec]

lemma longDiv_length (dtail : List F) : ∀ (n : Nat) (r : List F), n ≤ r.length →
    (longDiv dtail n r).1.length = n ∧ (longDiv dtail n r).2.length = r.length - n := by
  intro n
  induction n with
  | zero => intro r _; exact ⟨rfl, rfl⟩
  | succ n ih =>
    intro r hr
    cases r with
    | nil => simp at hr
    | cons c rest =>
      have hlen2 :
          (List.zipWith (fun x y => x - c * y) (rest.take dtail.length) dtail ++
            rest.drop dtail.length).length = rest.length := by
        simp [List.length_zipWith]
        omega
      have hrec := ih _ (by simp at hr; omega : n ≤ (List.zipWith (fun x y => x - c * y)
        (rest.take dtail.length) dtail ++ rest.drop dtail.length).length)
      unfold longDiv
      constructor
      · simpa using hrec.1
      · simp only [List.length_cons]
        rw [hrec.2, hlen2]
        simp at hr
        omega

lemma decode_length {e : Nat} {c m : List F} (h : decode e c = some m) :
    m.length = c.length - 2 * e := by
  unfold decode at h
  split_ifs at h with h1
  dsimp only at h
  cases hs : solveSystem (c.length - 2 * e + 2 * e) (bwSystem e c) with
  | none => rw [hs] at h; cases h
  | some z =>
    rw [hs] at h
    dsimp only at h
    have hz := solveSystem_length _ _ _ hs
    have hq : (z.take (c.length - 2 * e + e)).length = c.length - 2 * e + e := by
      rw [List.length_take]
      omega
    have hdiv := longDiv_length ((z.drop (c.length - 2 * e + e)).reverse) (c.length - 2 * e)
      ((z.take (c.length - 2 * e + e)).reverse)
      (by rw [List.length_reverse, hq]; omega)
    split_ifs at h
    injection h with h
    rw [← h, List.length_reverse, hdiv.1]

/-! ### Helper lemmas: the dot product -/

lemma dot_nil_left (ys : List F) : dot [] ys = 0 := rfl

lemma dot_cons (a : F) (xs : List F) (b : F) (ys : List F) :
    dot (a :: xs) (b :: ys) = a * b + dot xs ys := by
  unfold dot
  simp [List.zipWith_cons_cons]

lemma dot_sub_smul (f : F) : ∀ (rs ps ys : List F), rs.length = ps.length →
    dot (List.zipWith (fun x y => x - f * y) rs ps) ys =
      dot rs ys - f * dot ps ys := by
  intro rs
  induction rs with
  | nil =>
    intro ps ys h
    have : ps = [] := by
      cases ps with
      | nil => rfl
      | cons b t => simp at h
    subst this
    simp [dot]
  | cons a rs ih =>
    intro ps ys h
    cases ps with
    | nil => simp at h
    | cons b ps =>
      cases ys with
      | nil => simp [dot]
      | cons y ys =>
        rw [List.zipWith_cons_cons, dot_cons, dot_cons, dot_cons,
          ih ps ys (by simpa using h)]
        ring

lemma gfeInv_eq_inv (a : F) : gfeInv a = a⁻¹ := by
  rcases eq_or_ne a 0 with rfl | h
  · simp [gfeInv]
  · have h1 : a * gfeInv a = 1 := by
      have h66 := ZMod.pow_card_sub_one_eq_one h
      have : a * a ^ (65 : Nat) = a ^ (66 : Nat) := by ring
      rw [gfeInv, this]
      exact h66
    rw [mul_comm] at h1
    exact eq_inv_of_mul_eq_one_left h1

/-! ### Helper lemmas: Gaussian elimination -/

lemma extractPivot_none : ∀ {rows : List Row}, extractPivot rows = none →
    ∀ r ∈ rows, r.1.headD 0 = 0 := by
  intro rows
  induction rows with
  | nil => intro _ r hr; cases hr
  | cons s rows ih =>
    intro h r hr
    unfold extractPivot at h
    split_ifs at h with h1
    cases hrec : extractPivot rows with
    | some pr => rw [hrec] at h; obtain ⟨p, rest⟩ := pr; cases h
    | none =>
      rcases List.mem_cons.mp hr with rfl | hr2
      · simpa using h1
      · exact ih hrec r hr2

lemma extractPivot_some : ∀ {rows : List Row} {p : Row} {rest : List Row},
    extractPivot rows = some (p, rest) →
    p.1.headD 0 ≠ 0 ∧ rows.Perm (p :: rest) := by
  intro rows
  induction rows with
  | nil => intro p rest h; cases h
  | cons s rows ih =>
    intro p rest h
    unfold extractPivot at h
    split_ifs at h with h1
    · injection h with h
      injection h with h2 h3
      subst h2
      subst h3
      exact ⟨h1, List.Perm.refl _⟩
    · cases hrec : extractPivot rows with
      | none => rw [hrec] at h; cases h
      | some pr =>
        obtain ⟨p2, rest2⟩ := pr
        rw [hrec] at h
        dsimp only at h
        injection h with h
        injection h with h2 h3
        subst h2
        subst h3
        obtain ⟨hp2, hperm⟩ := ih hrec
        exact ⟨hp2, (hperm.cons s).trans (List.Perm.swap p2 s rest2)⟩

lemma elimRow_length {p r : Row} {c : Nat} (hp : p.1.length = c + 1)
    (hr : r.1.length = c + 1) : (elimRow p r).1.length = c := by
  obtain ⟨pl, pb⟩ := p
  obtain ⟨rl, rb⟩ := r
  cases pl with
  | nil => simp at hp
  | cons a ps =>
    cases rl with
    | nil => simp at hr
    | cons b rs =>
      simp only [elimRow, List.length_zipWith]
      simp at hp hr
      omega

lemma elimRow_sat {p r : Row} {c : Nat} {x0 : F} {xs : List F}
    (hp : p.1.length = c + 1) (hr : r.1.length = c + 1) (hxs : xs.length = c)
    (ha : p.1.headD 0 ≠ 0)
    (hsp : rowSat (x0 :: xs) p) (hsr : rowSat (x0 :: xs) r) :
    rowSat xs (elimRow p r) := by
  obtain ⟨pl, pb⟩ := p
  obtain ⟨rl, rb⟩ := r
  cases pl with
  | nil => simp at hp
  | cons a ps =>
    cases rl with
    | nil => simp at hr
    | cons b rs =>
      simp only [List.headD_cons] at ha
      unfold rowSat at hsp hsr ⊢
      simp only [elimRow]
      rw [dot_cons] at hsp hsr
      simp only at hsp hsr
      rw [dot_sub_smul _ rs ps xs (by simp at hp hr; omega)]
      have hfa : gfeDiv b a * a = b := by
        rw [gfeDiv, gfeInv_eq_inv, mul_assoc, inv_mul_cancel₀ ha, mul_one]
      linear_combination hsr - gfeDiv b a * hsp + x0 * hfa

lemma rowSat_of_elim {p r : Row} {c : Nat} {xs : List F}
    (hp : p.1.length = c + 1) (hr : r.1.length = c + 1) (hxs : xs.length = c)
    (ha : p.1.headD 0 ≠ 0)
    (hsp : rowSat (gfeDiv (p.2 - dot p.1.tail xs) (p.1.headD 0) :: xs) p)
    (hse : rowSat xs (elimRow p r)) :
    rowSat (gfeDiv (p.2 - dot p.1.tail xs) (p.1.headD 0) :: xs) r := by
  obtain ⟨pl, pb⟩ := p
  obtain ⟨rl, rb⟩ := r
  cases pl with
  | nil => simp at hp
  | cons a ps =>
    cases rl with
    | nil => simp at hr
    | cons b rs =>
      simp only [List.headD_cons, List.tail_cons] at ha hsp ⊢
      unfold rowSat at hsp hse ⊢
      simp only [elimRow] at hse
      rw [dot_sub_smul _ rs ps xs (by simp at hp hr; omega)] at hse
      rw [dot_cons] at hsp ⊢
      simp only at hsp ⊢
      have hfa : gfeDiv b a * a = b := by
        rw [gfeDiv, gfeInv_eq_inv, mul_assoc, inv_mul_cancel₀ ha, mul_one]
      set x0 := gfeDiv (pb - dot ps xs) a with hx0
      linear_combination hse + gfeDiv b a * hsp - x0 * hfa

lemma gfeDiv_mul_cancel {a : F} (t : F) (ha : a ≠ 0) : gfeDiv t a * a = t := by
  rw [gfeDiv, gfeInv_eq_inv, mul_assoc, inv_mul_cancel₀ ha, mul_one]

lemma solveSystem_sound : ∀ (c : Nat) (rows : List Row),
    (∀ r ∈ rows, r.1.length = c) →
    ∀ xs, solveSystem c rows = some xs → ∀ r ∈ rows, rowSat xs r := by
  intro c
  induction c with
  | zero =>
    intro rows hlen xs h r hr
    unfold solveSystem at h
    split_ifs at h with hall
    injection h with h
    subst h
    have h1 : r.1 = [] := List.length_eq_zero.mp (hlen r hr)
    have h2 : r.2 = 0 := by
      have := List.all_eq_true.mp hall r hr
      simpa using this
    unfold rowSat
    rw [h1, h2]
    rfl
  | succ c ih =>
    intro rows hlen xs h r hr
    unfold solveSystem at h
    cases hp : extractPivot rows with
    | none =>
      rw [hp] at h
      dsimp only at h
      cases hrec : solveSystem c (rows.map fun r => (r.1.tail, r.2)) with
      | none => rw [hrec] at h; cases h
      | some ys =>
        rw [hrec] at h
        injection h with h
        subst h
        have htails : ∀ t ∈ rows.map fun r => (r.1.tail, r.2), t.1.length = c := by
          intro t ht
          obtain ⟨r2, hr2, rfl⟩ := List.mem_map.mp ht
          have := hlen r2 hr2
          simp [List.length_tail, this]
        have hsat := ih _ htails ys hrec
        obtain ⟨hd, tl, hcons⟩ : ∃ hd tl, r.1 = hd :: tl := by
          have hl := hlen r hr
          cases hcr : r.1 with
          | nil => rw [hcr] at hl; simp at hl
          | cons hd tl => exact ⟨hd, tl, rfl⟩
        have hhd : hd = 0 := by
          have := extractPivot_none hp r hr
          rw [hcons] at this
          simpa using this
        unfold rowSat
        rw [hcons, dot_cons, hhd]
        have := hsat (r.1.tail, r.2) (List.mem_map.mpr ⟨r, hr, rfl⟩)
        unfold rowSat at this
        rw [hcons] at this
        simp only [List.tail_cons] at this
        rw [this]
        ring
    | some pr =>
      obtain ⟨p, rest⟩ := pr
      rw [hp] at h
      dsimp only at h
      cases hrec : solveSystem c (rest.map (elimRow p)) with
      | none => rw [hrec] at h; cases h
      | some ys =>
        rw [hrec] at h
        injection h with h
        subst h
        obtain ⟨hpnz, hperm⟩ := extractPivot_some hp
        have hmem : ∀ s ∈ p :: rest, s ∈ rows := fun s hs => hperm.mem_iff.mpr hs
        have hplen : p.1.length = c + 1 := hlen p (hmem p (by simp))
        have hrestlen : ∀ s ∈ rest, s.1.length = c + 1 := fun s hs =>
          hlen s (hmem s (by simp [hs]))
        have helimlen : ∀ t ∈ rest.map (elimRow p), t.1.length = c := by
          intro t ht
          obtain ⟨s, hs, rfl⟩ := List.mem_map.mp ht
          exact elimRow_length hplen (hrestlen s hs)
        have hsatE := ih _ helimlen ys hrec
        have hys : ys.length = c := solveSystem_length _ _ _ hrec
        have hsatp : rowSat (gfeDiv (p.2 - dot p.1.tail ys) (p.1.headD 0) :: ys) p := by
          obtain ⟨pl, pb⟩ := p
          cases pl with
          | nil => simp at hplen
          | cons a ps =>
            simp only [List.headD_cons, List.tail_cons] at hpnz ⊢
            unfold rowSat
            rw [dot_cons]
            simp only
            have := gfeDiv_mul_cancel (pb - dot ps ys) hpnz
            linear_combination this
        have hr2 := hperm.mem_iff.mp hr
        rcases List.mem_cons.mp hr2 with rfl | hrrest
        · exact hsatp
        · exact rowSat_of_elim hplen (hrestlen r hrrest) hys hpnz hsatp
            (hsatE (elimRow p r) (List.mem_map.mpr ⟨r, hrrest, rfl⟩))

lemma solveSystem_complete : ∀ (c : Nat) (rows : List Row),
    (∀ r ∈ rows, r.1.length = c) →
    ∀ y, y.length = c → (∀ r ∈ rows, rowSat y r) →
    ∃ xs, solveSystem c rows = some xs := by
  intro c
  induction c with
  | zero =>
    intro rows hlen y hy hsat
    refine ⟨[], ?_⟩
    unfold solveSystem
    rw [if_pos]
    rw [List.all_eq_true]
    intro r hr
    have h1 : r.1 = [] := List.length_eq_zero.mp (hlen r hr)
    have h2 := hsat r hr
    unfold rowSat at h2
    rw [h1] at h2
    have hy0 : y = [] := List.length_eq_zero.mp hy
    subst hy0
    simp only [dot_nil_left] at h2
    simpa using h2.symm
  | succ c ih =>
    intro rows hlen y hy hsat
    cases y with
    | nil => simp at hy
    | cons y0 ys =>
      have hys : ys.length = c := by simpa using hy
      unfold solveSystem
      cases hp : extractPivot rows with
      | none =>
        have htails : ∀ t ∈ rows.map fun r => (r.1.tail, r.2), t.1.length = c := by
          intro t ht
          obtain ⟨r2, hr2, rfl⟩ := List.mem_map.mp ht
          have := hlen r2 hr2
          simp [List.length_tail, this]
        have hsattails : ∀ t ∈ rows.map fun r => (r.1.tail, r.2), rowSat ys t := by
          intro t ht
          obtain ⟨r2, hr2, rfl⟩ := List.mem_map.mp ht
          obtain ⟨hd, tl, hcons⟩ : ∃ hd tl, r2.1 = hd :: tl := by
            have hl := hlen r2 hr2
            cases hcr : r2.1 with
            | nil => rw [hcr] at hl; simp at hl
            | cons hd tl => exact ⟨hd, tl, rfl⟩
          have hhd : hd = 0 := by
            have := extractPivot_none hp r2 hr2
            rw [hcons] at this
            simpa using this
          have h2 := hsat r2 hr2
          unfold rowSat at h2 ⊢
          rw [hcons] at h2
          rw [dot_cons, hhd] at h2
          rw [hcons]
          simp only [List.tail_cons]
          linear_combination h2
        obtain ⟨zs, hzs⟩ := ih _ htails ys hys hsattails
        exact ⟨0 :: zs, by dsimp only; rw [hzs]; rfl⟩
      | some pr =>
        obtain ⟨p, rest⟩ := pr
        obtain ⟨hpnz, hperm⟩ := extractPivot_some hp
        have hmem : ∀ s ∈ p :: rest, s ∈ rows := fun s hs => hperm.mem_iff.mpr hs
        have hplen : p.1.length = c + 1 := hlen p (hmem p (by simp))
        have hrestlen : ∀ s ∈ rest, s.1.length = c + 1 := fun s hs =>
          hlen s (hmem s (by simp [hs]))
        have helimlen : ∀ t ∈ rest.map (elimRow p), t.1.length = c := by
          intro t ht
          obtain ⟨s, hs, rfl⟩ := List.mem_map.mp ht
          exact elimRow_length hplen (hrestlen s hs)
        have hsatE : ∀ t ∈ rest.map (elimRow p), rowSat ys t := by
          intro t ht
          obtain ⟨s, hs, rfl⟩ := List.mem_map.mp ht
          exact elimRow_sat hplen (hrestlen s hs) hys hpnz
            (hsat p (hmem p (by simp))) (hsat s (hmem s (by simp [hs])))
        obtain ⟨zs, hzs⟩ := ih _ helimlen ys hys hsatE
        exact ⟨_, by dsimp only; rw [hzs]; rfl⟩

/-! ### Helper lemmas: coefficient lists and polynomials -/

lemma toPoly_nil : toPoly [] = 0 := rfl

lemma toPoly_cons (a : F) (l : List F) :
    toPoly (a :: l) = Polynomial.C a + Polynomial.X * toPoly l := rfl

lemma polyEval_cons (a : F) (l : List F) (x : F) :
    polyEval (a :: l) x = a + x * polyEval l x := rfl

lemma toPoly_eval (l : List F) (x : F) : (toPoly l).eval x = polyEval l x := by
  induction l with
  | nil => simp [toPoly, polyEval]
  | cons a l ih => rw [toPoly_cons, polyEval_cons]; simp [ih]

lemma toPoly_coeff : ∀ (l : List F) (n : Nat), (toPoly l).coeff n = l.getD n 0 := by
  intro l
  induction l with
  | nil => intro n; simp [toPoly]
  | cons a l ih =>
    intro n
    cases n with
    | zero =>
      rw [toPoly_cons]
      simp [Polynomial.mul_coeff_zero]
    | succ n =>
      rw [toPoly_cons]
      simp [Polynomial.coeff_X_mul, ih n]

lemma toPoly_natDegree_le (l : List F) : (toPoly l).natDegree ≤ l.length - 1 := by
  rw [Polynomial.natDegree_le_iff_coeff_eq_zero]
  intro m hm
  rw [toPoly_coeff]
  exact List.getD_eq_default _ _ (by omega)

lemma toPoly_natDegree_lt {l : List F} (h : l ≠ []) : (toPoly l).natDegree < l.length := by
  have h1 := toPoly_natDegree_le l
  have h2 : 0 < l.length := List.length_pos.mpr h
  omega

lemma toPoly_inj : ∀ {l1 l2 : List F}, l1.length = l2.length →
    toPoly l1 = toPoly l2 → l1 = l2 := by
  intro l1 l2 hlen heq
  apply List.ext_getElem hlen
  intro i h1 h2
  have hc : (toPoly l1).coeff i = (toPoly l2).coeff i := by rw [heq]
  rw [toPoly_coeff, toPoly_coeff] at hc
  rwa [List.getD_eq_getElem?_getD, List.getD_eq_getElem?_getD,
    List.getElem?_eq_getElem h1, List.getElem?_eq_getElem h2] at hc

lemma toPoly_zero_elem {l : List F} (h : toPoly l = 0) : ∀ x ∈ l, x = 0 := by
  intro x hx
  obtain ⟨i, hi, rfl⟩ := List.mem_iff_getElem.mp hx
  have hc : (toPoly l).coeff i = 0 := by rw [h]; simp
  rw [toPoly_coeff] at hc
  rwa [List.getD_eq_getElem?_getD, List.getElem?_eq_getElem hi] at hc

lemma toPoly_append_single (l : List F) (c : F) :
    toPoly (l ++ [c]) = toPoly l + Polynomial.C c * Polynomial.X ^ l.length := by
  induction l with
  | nil => simp [toPoly_cons, toPoly]
  | cons a l ih =>
    show toPoly (a :: (l ++ [c])) = _
    rw [toPoly_cons, ih, toPoly_cons]
    simp [pow_succ]
    ring

lemma toPoly_replicate_append (m : Nat) (l : List F) :
    toPoly (List.replicate m 0 ++ l) = Polynomial.X ^ m * toPoly l := by
  induction m with
  | zero => simp
  | succ m ih =>
    rw [List.replicate_succ, List.cons_append, toPoly_cons, ih]
    simp [pow_succ]
    ring

lemma toPoly_map_mul (c : F) (l : List F) :
    toPoly (l.map fun x => c * x) = Polynomial.C c * toPoly l := by
  induction l with
  | nil => simp [toPoly]
  | cons a l ih =>
    rw [List.map_cons, toPoly_cons, toPoly_cons, ih]
    simp
    ring

lemma toPoly_zipWith_sub : ∀ (xs ys : List F), xs.length = ys.length →
    toPoly (List.zipWith (fun a b => a - b) xs ys) = toPoly xs - toPoly ys := by
  intro xs
  induction xs with
  | nil =>
    intro ys h
    have hy : ys = [] := List.length_eq_zero.mp (by simpa using h.symm)
    subst hy
    simp [toPoly]
  | cons a xs ih =>
    intro ys h
    cases ys with
    | nil => simp at h
    | cons b ys =>
      rw [List.zipWith_cons_cons, toPoly_cons, toPoly_cons, toPoly_cons,
        ih ys (by simpa using h), Polynomial.C_sub]
      ring

lemma toPoly_range_coeff {p : Polynomial F} {len : Nat} (h : p.natDegree < len) :
    toPoly ((List.range len).map fun j => p.coeff j) = p := by
  apply Polynomial.ext
  intro n
  rw [toPoly_coeff]
  rcases lt_or_le n len with h1 | h1
  · rw [List.getD_eq_getElem?_getD,
      List.getElem?_eq_getElem (by simpa using h1 :
        n < ((List.range len).map fun j => p.coeff j).length)]
    simp
  · rw [List.getD_eq_default _ _ (by simpa using h1)]
    exact (Polynomial.coeff_eq_zero_of_natDegree_lt (lt_of_lt_of_le h h1)).symm

lemma toPoly_monic_coeffs {p : Polynomial F} {e : Nat} (hm : p.Monic)
    (hd : p.natDegree = e) :
    toPoly (((List.range e).map fun j => p.coeff j) ++ [1]) = p := by
  apply Polynomial.ext
  intro n
  rw [toPoly_coeff]
  rcases lt_trichotomy n e with h1 | h1 | h1
  · rw [List.getD_append _ _ _ _ (by simpa using h1)]
    rw [List.getD_eq_getElem?_getD,
      List.getElem?_eq_getElem (by simpa using h1 :
        n < ((List.range e).map fun j => p.coeff j).length)]
    simp
  · subst h1
    rw [List.getD_append_right _ _ _ _ (by simp)]
    simp only [List.length_map, List.length_range, Nat.sub_self]
    have : p.coeff n = 1 := by
      have := hm.leadingCoeff
      rwa [Polynomial.leadingCoeff, hd] at this
    rw [this]
    rfl
  · rw [List.getD_eq_default _ _ (by simp; omega)]
    refine (Polynomial.coeff_eq_zero_of_natDegree_lt ?_).symm
    omega

/-! ### Helper lemmas: big-endian lists and long division -/

lemma toPolyBE_nil : toPolyBE [] = 0 := rfl

lemma toPolyBE_cons (c : F) (l : List F) :
    toPolyBE (c :: l) =
      Polynomial.C c * Polynomial.X ^ l.length + toPolyBE l := by
  unfold toPolyBE
  rw [List.reverse_cons, toPoly_append_single, List.length_reverse]
  ring

lemma toPolyBE_natDegree_le (l : List F) : (toPolyBE l).natDegree ≤ l.length - 1 := by
  unfold toPolyBE
  have := toPoly_natDegree_le l.reverse
  rwa [List.length_reverse] at this

lemma zipWith_sub_zero_pad : ∀ (u : List F),
    List.zipWith (fun x y => x - y) u (List.replicate u.length 0) = u := by
  intro u
  induction u with
  | nil => rfl
  | cons a u ih =>
    simp only [List.length_cons, List.replicate_succ, List.zipWith_cons_cons, ih, sub_zero]

lemma zipWith_sub_pad : ∀ (w u : List F) (d : Nat), w.length = d → d ≤ u.length →
    List.zipWith (fun x y => x - y) (u.take d) w ++ u.drop d =
      List.zipWith (fun x y => x - y) u (w ++ List.replicate (u.length - d) 0) := by
  intro w
  induction w with
  | nil =>
    intro u d hd h
    subst hd
    simp [zipWith_sub_zero_pad]
  | cons b w ih =>
    intro u d hd h
    subst hd
    cases u with
    | nil => simp at h
    | cons a u =>
      have hlen : u.length + 1 - (w.length + 1) = u.length - w.length := by omega
      simp only [List.length_cons, List.take_succ_cons, List.zipWith_cons_cons,
        List.drop_succ_cons, List.cons_append, hlen]
      rw [ih u w.length rfl (by simpa using h)]

lemma toPolyBE_zipWith_sub {xs ys : List F} (h : xs.length = ys.length) :
    toPolyBE (List.zipWith (fun a b => a - b) xs ys) = toPolyBE xs - toPolyBE ys := by
  unfold toPolyBE
  rw [List.reverse_zipWith h, toPoly_zipWith_sub _ _ (by simp [h])]

lemma toPolyBE_mul_pad (c : F) (dtail : List F) (m : Nat) :
    toPolyBE ((dtail.map fun y => c * y) ++ List.replicate m 0) =
      Polynomial.C c * toPolyBE dtail * Polynomial.X ^ m := by
  unfold toPolyBE
  rw [List.reverse_append, List.reverse_replicate, toPoly_replicate_append]
  have h1 : (List.map (fun y => c * y) dtail).reverse =
      List.map (fun y => c * y) dtail.reverse := by
    simp
  rw [h1, toPoly_map_mul]
  ring

lemma longDiv_step_poly {c : F} {rest dtail : List F} (h : dtail.length ≤ rest.length) :
    toPolyBE (List.zipWith (fun x y => x - c * y) (rest.take dtail.length) dtail ++
        rest.drop dtail.length) =
      toPolyBE rest -
        Polynomial.C c * toPolyBE dtail *
          Polynomial.X ^ (rest.length - dtail.length) := by
  have h1 : List.zipWith (fun x y => x - c * y) (rest.take dtail.length) dtail =
      List.zipWith (fun x y => x - y) (rest.take dtail.length)
        (dtail.map fun y => c * y) := by
    rw [List.zipWith_map_right]
  rw [h1, zipWith_sub_pad (dtail.map fun y => c * y) rest dtail.length (by simp) h,
    toPolyBE_zipWith_sub (by simp; omega),
    toPolyBE_mul_pad]

lemma longDiv_poly_spec (dtail : List F) : ∀ (n : Nat) (r : List F),
    r.length = n + dtail.length →
    toPolyBE r =
      toPolyBE (longDiv dtail n r).1 * toPolyBE (1 :: dtail) +
        toPolyBE (longDiv dtail n r).2 := by
  intro n
  induction n with
  | zero =>
    intro r hr
    show toPolyBE r = toPolyBE [] * _ + toPolyBE r
    rw [toPolyBE_nil]
    ring
  | succ n ih =>
    intro r hr
    cases r with
    | nil => simp at hr; omega
    | cons c rest =>
      have hrest : rest.length = n + dtail.length := by simp at hr; omega
      have hle : dtail.length ≤ rest.length := by omega
      set r2 := List.zipWith (fun x y => x - c * y) (rest.take dtail.length) dtail ++
        rest.drop dtail.length with hr2
      have hlen2 : r2.length = n + dtail.length := by
        rw [hr2]
        simp [List.length_zipWith]
        omega
      have hrec := ih r2 hlen2
      have hqlen := (longDiv_length dtail n r2 (by omega)).1
      have hshift : rest.length - dtail.length = n := by omega
      have hstep : toPolyBE r2 =
          toPolyBE rest - Polynomial.C c * toPolyBE dtail * Polynomial.X ^ n := by
        rw [hr2, longDiv_step_poly hle, hshift]
      have hLD : longDiv dtail (n + 1) (c :: rest) =
          (c :: (longDiv dtail n r2).1, (longDiv dtail n r2).2) := by
        rw [hr2]
        rfl
      rw [hLD]
      dsimp only
      rw [toPolyBE_cons c rest, toPolyBE_cons c ((longDiv dtail n r2).1), hqlen, hrest]
      have hE : toPolyBE (1 :: dtail) =
          Polynomial.X ^ dtail.length + toPolyBE dtail := by
        rw [toPolyBE_cons 1 dtail, Polynomial.C_1, one_mul]
      linear_combination hrec - hstep -
        (Polynomial.C c * Polynomial.X ^ n) * hE

/-! ### Helper lemmas: the Berlekamp-Welch linear system -/

lemma dot_append {u v q eps : List F} (hu : u.length = q.length) :
    dot (u ++ v) (q ++ eps) = dot u q + dot v eps := by
  unfold dot
  rw [List.zipWith_append _ _ _ _ _ hu, List.sum_append]

lemma dot_append_split {u v z : List F} (hu : u.length ≤ z.length) :
    dot (u ++ v) z = dot u (z.take u.length) + dot v (z.drop u.length) := by
  conv_lhs => rw [← List.take_append_drop u.length z]
  exact dot_append (by simp [hu])

lemma dot_map_mul_left (c : F) : ∀ (u v : List F),
    dot (u.map fun t => c * t) v = c * dot u v := by
  intro u
  induction u with
  | nil => intro v; simp [dot]
  | cons a u ih =>
    intro v
    cases v with
    | nil => simp [dot]
    | cons b v =>
      rw [List.map_cons, dot_cons, dot_cons, ih v]
      ring

lemma dot_map_neg_mul (c : F) : ∀ (u v : List F),
    dot (u.map fun t => -(c * t)) v = -(c * dot u v) := by
  intro u
  induction u with
  | nil => intro v; simp [dot]
  | cons a u ih =>
    intro v
    cases v with
    | nil => simp [dot]
    | cons b v =>
      rw [List.map_cons, dot_cons, dot_cons, ih v]
      ring

lemma dot_pow_polyEval (x : F) : ∀ (l : List F),
    dot ((List.range l.length).map fun j => x ^ j) l = polyEval l x := by
  intro l
  induction l with
  | nil => rfl
  | cons a l ih =>
    rw [List.length_cons, List.range_succ_eq_map, List.map_cons, List.map_map,
      dot_cons, polyEval_cons]
    have h1 : ((fun j => x ^ j) ∘ Nat.succ) = fun j : Nat => x * x ^ j := by
      funext j
      simp [pow_succ]
      ring
    rw [h1]
    have h2 : (List.range l.length).map (fun j : Nat => x * x ^ j) =
        ((List.range l.length).map fun j => x ^ j).map fun t => x * t := by
      rw [List.map_map]
      rfl
    rw [h2, dot_map_mul_left, ih]
    simp

lemma bwRow_length (ke e : Nat) (xi yi : F) : (bwRow ke e xi yi).1.length = ke + e := by
  simp [bwRow]

lemma bwRow_sat_iff {ke e : Nat} {xi yi : F} {z : List F} (hz : z.length = ke + e) :
    rowSat z (bwRow ke e xi yi) ↔
      polyEval (z.take ke) xi = yi * (polyEval (z.drop ke) xi + xi ^ e) := by
  unfold rowSat bwRow
  simp only
  rw [dot_append_split (by simp; omega)]
  simp only [List.length_map, List.length_range]
  have htake : (z.take ke).length = ke := by simp; omega
  have hdrop : (z.drop ke).length = e := by simp; omega
  have h1 := dot_pow_polyEval xi (z.take ke)
  rw [htake] at h1
  have h2 : dot ((List.range e).map fun j => -(yi * xi ^ j)) (z.drop ke) =
      -(yi * polyEval (z.drop ke) xi) := by
    have hm : (List.range e).map (fun j => -(yi * xi ^ j)) =
        ((List.range e).map fun j => xi ^ j).map fun t => -(yi * t) := by
      rw [List.map_map]
      rfl
    have hp := dot_pow_polyEval xi (z.drop ke)
    rw [hdrop] at hp
    rw [hm, dot_map_neg_mul, hp]
  rw [h1, h2]
  constructor
  · intro h
    linear_combination h
  · intro h
    linear_combination h

lemma bwSystem_mem_iff {e : Nat} {cw : List F} {r : Row} :
    r ∈ bwSystem e cw ↔
      ∃ i, ∃ hi : i < cw.length,
        r = bwRow (cw.length - 2 * e + e) e (Nat.cast i) cw[i] := by
  unfold bwSystem
  rw [List.mem_iff_getElem]
  constructor
  · rintro ⟨i, hi, hr⟩
    have hi2 : i < cw.length := by
      simpa using hi
    refine ⟨i, hi2, ?_⟩
    rw [← hr, List.getElem_zipWith]
    simp
  · rintro ⟨i, hi, hr⟩
    refine ⟨i, by simpa using hi, ?_⟩
    rw [List.getElem_zipWith]
    simp [hr]

/-! ### Helper lemmas: monic error locators and evaluation points -/

lemma toPoly_snoc_one_monic (eps : List F) : (toPoly (eps ++ [1])).Monic := by
  refine Polynomial.monic_of_natDegree_le_of_coeff_eq_one eps.length ?_ ?_
  · have h1 := toPoly_natDegree_le (eps ++ [1])
    simp at h1
    omega
  · rw [toPoly_coeff, List.getD_append_right _ _ _ _ le_rfl]
    simp

lemma toPoly_snoc_one_natDegree (eps : List F) :
    (toPoly (eps ++ [1])).natDegree = eps.length := by
  have hc : (toPoly (eps ++ [1])).coeff eps.length = 1 := by
    rw [toPoly_coeff, List.getD_append_right _ _ _ _ le_rfl]
    simp
  have hge : eps.length ≤ (toPoly (eps ++ [1])).natDegree :=
    Polynomial.le_natDegree_of_ne_zero (by rw [hc]; exact one_ne_zero)
  have hle := toPoly_natDegree_le (eps ++ [1])
  simp at hle
  omega

lemma toPoly_snoc_one_eval (eps : List F) (x : F) :
    (toPoly (eps ++ [1])).eval x = polyEval eps x + x ^ eps.length := by
  rw [toPoly_append_single]
  simp [toPoly_eval]

lemma cast_inj_lt : ∀ {i j : Nat}, i < 67 → j < 67 → (Nat.cast i : F) = Nat.cast j → i = j := by
  intro i j hi hj h
  have h2 : ((Nat.cast i : F)).val = ((Nat.cast j : F)).val := by rw [h]
  rwa [ZMod.val_natCast, ZMod.val_natCast, Nat.mod_eq_of_lt hi, Nat.mod_eq_of_lt hj] at h2

lemma bw_rows_len {e : Nat} {m y : List F} (hy : y.length = m.length + 2 * e) :
    ∀ r ∈ bwSystem e y, r.1.length = m.length + 2 * e := by
  intro r hr
  obtain ⟨i, hi, rfl⟩ := bwSystem_mem_iff.mp hr
  rw [bwRow_length]
  omega

lemma bw_exists {e : Nat} {m y : List F} (hm : m ≠ []) (he : 1 ≤ e)
    (hy : y.length = m.length + 2 * e)
    (herr : ((Finset.range (m.length + 2 * e)).filter fun i =>
      ¬ y.getD i 0 = polyEval m (Nat.cast i)).card ≤ e) :
    ∃ z, solveSystem (m.length + 2 * e) (bwSystem e y) = some z := by
  set errF := (Finset.range (m.length + 2 * e)).filter
    (fun i => ¬ y.getD i 0 = polyEval m (Nat.cast i)) with herrF
  set Estar := Polynomial.X ^ (e - errF.card) *
    ∏ i ∈ errF, (Polynomial.X - Polynomial.C (Nat.cast i : F)) with hEstar
  have hprodmonic : (∏ i ∈ errF,
      (Polynomial.X - Polynomial.C (Nat.cast i : F))).Monic :=
    Polynomial.monic_prod_of_monic _ _ fun i _ => Polynomial.monic_X_sub_C _
  have hEmonic : Estar.Monic := (Polynomial.monic_X_pow _).mul hprodmonic
  have hEdeg : Estar.natDegree = e := by
    rw [hEstar, Polynomial.natDegree_mul (Polynomial.monic_X_pow _).ne_zero
      hprodmonic.ne_zero, Polynomial.natDegree_X_pow,
      Polynomial.natDegree_prod_of_monic _ _ fun i _ => Polynomial.monic_X_sub_C _]
    simp only [Polynomial.natDegree_X_sub_C, Finset.sum_const, smul_eq_mul, mul_one]
    omega
  have hEvanish : ∀ i ∈ errF, Estar.eval (Nat.cast i) = 0 := by
    intro i hi
    rw [hEstar, Polynomial.eval_mul, Polynomial.eval_prod,
      Finset.prod_eq_zero hi (by simp)]
    ring
  set qstar := (List.range (m.length + e)).map
    (fun j => (toPoly m * Estar).coeff j) with hqstar
  set epsstar := (List.range e).map (fun j => Estar.coeff j) with hepsstar
  have hqlen : qstar.length = m.length + e := by rw [hqstar]; simp
  have hepslen : epsstar.length = e := by rw [hepsstar]; simp
  have hMdeg : (toPoly m).natDegree < m.length := toPoly_natDegree_lt hm
  have hQ : toPoly qstar = toPoly m * Estar := by
    apply toPoly_range_coeff
    have h1 : (toPoly m * Estar).natDegree ≤ (toPoly m).natDegree + Estar.natDegree :=
      Polynomial.natDegree_mul_le
    omega
  have hEps : toPoly (epsstar ++ [1]) = Estar := by
    rw [hepsstar, ← hEdeg]
    exact toPoly_monic_coeffs hEmonic rfl
  have hsat : ∀ r ∈ bwSystem e y, rowSat (qstar ++ epsstar) r := by
    intro r hr
    obtain ⟨i, hi, rfl⟩ := bwSystem_mem_iff.mp hr
    have hke : y.length - 2 * e + e = m.length + e := by omega
    rw [hke]
    rw [bwRow_sat_iff (by rw [List.length_append, hqlen, hepslen])]
    rw [List.take_left' hqlen, List.drop_left' hqlen]
    have hE2 : polyEval epsstar (Nat.cast i) + (Nat.cast i : F) ^ e =
        Estar.eval (Nat.cast i) := by
      rw [← hEps, toPoly_snoc_one_eval, hepslen]
    rw [hE2, ← toPoly_eval, hQ, Polynomial.eval_mul]
    by_cases hcase : i ∈ errF
    · rw [hEvanish i hcase]
      ring
    · have hirange : i ∈ Finset.range (m.length + 2 * e) := by
        rw [Finset.mem_range]
        omega
      have heq : y.getD i 0 = polyEval m (Nat.cast i) := by
        by_contra hne
        exact hcase (Finset.mem_filter.mpr ⟨hirange, hne⟩)
      have hgetD : y.getD i 0 = y[i] := by
        rw [List.getD_eq_getElem?_getD, List.getElem?_eq_getElem hi]
        rfl
      rw [← hgetD, heq, toPoly_eval]
  obtain ⟨z, hz⟩ := solveSystem_complete (m.length + 2 * e) (bwSystem e y)
    (bw_rows_len hy) (qstar ++ epsstar)
    (by rw [List.length_append, hqlen, hepslen]; omega) hsat
  exact ⟨z, hz⟩

lemma decode_sound_step {e : Nat} {m y z : List F} (hm : m ≠ []) (he : 1 ≤ e)
    (hn : m.length + 2 * e ≤ 67) (hy : y.length = m.length + 2 * e)
    (herr : ((Finset.range (m.length + 2 * e)).filter fun i =>
      ¬ y.getD i 0 = polyEval m (Nat.cast i)).card ≤ e)
    (hz : solveSystem (m.length + 2 * e) (bwSystem e y) = some z) :
    ((longDiv (z.drop (m.length + e)).reverse m.length
        (z.take (m.length + e)).reverse).2.all fun x => x = 0) = true ∧
    (longDiv (z.drop (m.length + e)).reverse m.length
      (z.take (m.length + e)).reverse).1.reverse = m := by
  have hm1 : 1 ≤ m.length := List.length_pos.mpr hm
  have hzlen : z.length = m.length + 2 * e := solveSystem_length _ _ _ hz
  have hsound := solveSystem_sound (m.length + 2 * e) _ (bw_rows_len hy) z hz
  set q := z.take (m.length + e) with hqdef
  set eps := z.drop (m.length + e) with hepsdef
  have hqlen : q.length = m.length + e := by rw [hqdef]; simp; omega
  have hepslen : eps.length = e := by rw [hepsdef]; simp; omega
  have heval : ∀ i : Nat, i < y.length →
      (toPoly q).eval (Nat.cast i) =
        y.getD i 0 * (toPoly (eps ++ [1])).eval (Nat.cast i) := by
    intro i hi
    have hmem : bwRow (y.length - 2 * e + e) e (Nat.cast i) y[i] ∈ bwSystem e y :=
      bwSystem_mem_iff.mpr ⟨i, hi, rfl⟩
    have hs := hsound _ hmem
    have hke : y.length - 2 * e + e = m.length + e := by omega
    rw [hke, bwRow_sat_iff (show z.length = m.length + e + e by omega)] at hs
    rw [← hqdef, ← hepsdef] at hs
    have hgetD : y.getD i 0 = y[i] := by
      rw [List.getD_eq_getElem?_getD, List.getElem?_eq_getElem hi]
      rfl
    rw [toPoly_eval, toPoly_snoc_one_eval, hepslen, hgetD]
    exact hs
  have hEzmonic := toPoly_snoc_one_monic eps
  have hEzdeg : (toPoly (eps ++ [1])).natDegree = e := by
    rw [toPoly_snoc_one_natDegree, hepslen]
  have hR0 : toPoly q - toPoly m * toPoly (eps ++ [1]) = 0 := by
    apply Polynomial.eq_zero_of_natDegree_lt_card_of_eval_eq_zero' _
      (((Finset.range (m.length + 2 * e)).filter
        (fun i => y.getD i 0 = polyEval m (Nat.cast i))).image
          (fun i => (Nat.cast i : F)))
    · intro x hx
      obtain ⟨i, hi, rfl⟩ := Finset.mem_image.mp hx
      obtain ⟨hir, hieq⟩ := Finset.mem_filter.mp hi
      have hilt : i < y.length := by
        rw [hy]
        exact Finset.mem_range.mp hir
      rw [Polynomial.eval_sub, Polynomial.eval_mul, heval i hilt]
      have h8 : Polynomial.eval (Nat.cast i) (toPoly m) = y.getD i 0 := by
        rw [toPoly_eval]
        exact hieq.symm
      rw [h8]
      ring
    · have hd1 : (toPoly q).natDegree ≤ m.length + e - 1 := by
        have h2 := toPoly_natDegree_le q
        rw [hqlen] at h2
        exact h2
      have hd2 : (toPoly m * toPoly (eps ++ [1])).natDegree ≤
          (toPoly m).natDegree + (toPoly (eps ++ [1])).natDegree :=
        Polynomial.natDegree_mul_le
      have hd3 := toPoly_natDegree_le m
      have hsub : (toPoly q - toPoly m * toPoly (eps ++ [1])).natDegree ≤
          m.length + e - 1 :=
        le_trans (Polynomial.natDegree_sub_le _ _) (max_le hd1 (by omega))
      have hinj : Set.InjOn (fun i : Nat => (Nat.cast i : F))
          ↑((Finset.range (m.length + 2 * e)).filter
            (fun i => y.getD i 0 = polyEval m (Nat.cast i))) := by
        intro i hi j hj hij
        have hi2 : i < 67 := by
          have h7 := (Finset.mem_filter.mp (Finset.mem_coe.mp hi)).1
          rw [Finset.mem_range] at h7
          omega
        have hj2 : j < 67 := by
          have h7 := (Finset.mem_filter.mp (Finset.mem_coe.mp hj)).1
          rw [Finset.mem_range] at h7
          omega
        exact cast_inj_lt hi2 hj2 hij
      rw [Finset.card_image_of_injOn hinj]
      have hcards : ((Finset.range (m.length + 2 * e)).filter
            (fun i => y.getD i 0 = polyEval m (Nat.cast i))).card +
          ((Finset.range (m.length + 2 * e)).filter
            (fun i => ¬ y.getD i 0 = polyEval m (Nat.cast i))).card =
          (Finset.range (m.length + 2 * e)).card :=
        Finset.filter_card_add_filter_neg_card_eq_card _
      rw [Finset.card_range] at hcards
      omega
  have hQM : toPoly q = toPoly m * toPoly (eps ++ [1]) := sub_eq_zero.mp hR0
  have hdiv := longDiv_poly_spec eps.reverse m.length q.reverse
    (by rw [List.length_reverse, List.length_reverse, hqlen, hepslen])
  have hreslen := longDiv_length eps.reverse m.length q.reverse
    (by rw [List.length_reverse, hqlen]; omega)
  have hBEq : toPolyBE q.reverse = toPoly q := by
    unfold toPolyBE
    rw [List.reverse_reverse]
  have hBEE : toPolyBE (1 :: eps.reverse) = toPoly (eps ++ [1]) := by
    unfold toPolyBE
    rw [List.reverse_cons, List.reverse_reverse]
  rw [hBEq, hBEE, hQM] at hdiv
  have hEzne : toPoly (eps ++ [1]) ≠ 0 := hEzmonic.ne_zero
  have hrem2len : (longDiv eps.reverse m.length q.reverse).2.length = e := by
    rw [hreslen.2, List.length_reverse, hqlen]
    omega
  have hmain : toPolyBE (longDiv eps.reverse m.length q.reverse).1 = toPoly m ∧
      toPolyBE (longDiv eps.reverse m.length q.reverse).2 = 0 := by
    by_cases hcase : toPolyBE (longDiv eps.reverse m.length q.reverse).1 = toPoly m
    · refine ⟨hcase, ?_⟩
      rw [hcase] at hdiv
      linear_combination -hdiv
    · exfalso
      have hne0 : toPolyBE (longDiv eps.reverse m.length q.reverse).1 - toPoly m ≠ 0 :=
        sub_ne_zero.mpr hcase
      have heqn : (toPolyBE (longDiv eps.reverse m.length q.reverse).1 - toPoly m) *
          toPoly (eps ++ [1]) =
            -toPolyBE (longDiv eps.reverse m.length q.reverse).2 := by
        linear_combination -hdiv
      have hdeg1 : ((toPolyBE (longDiv eps.reverse m.length q.reverse).1 - toPoly m) *
          toPoly (eps ++ [1])).natDegree =
            (toPolyBE (longDiv eps.reverse m.length q.reverse).1 - toPoly m).natDegree
              + e := by
        rw [Polynomial.natDegree_mul hne0 hEzne, hEzdeg]
      have hdeg2 :
          (-toPolyBE (longDiv eps.reverse m.length q.reverse).2).natDegree ≤ e - 1 := by
        rw [Polynomial.natDegree_neg]
        have h5 := toPolyBE_natDegree_le (longDiv eps.reverse m.length q.reverse).2
        rw [hrem2len] at h5
        exact h5
      rw [heqn] at hdeg1
      omega
  constructor
  · rw [List.all_eq_true]
    intro x hx
    have hx2 : x ∈ (longDiv eps.reverse m.length q.reverse).2.reverse :=
      List.mem_reverse.mpr hx
    have h6 : toPoly (longDiv eps.reverse m.length q.reverse).2.reverse = 0 := hmain.2
    have h7 := toPoly_zero_elem h6 x hx2
    simpa using h7
  · apply toPoly_inj
    · rw [List.length_reverse, hreslen.1]
    · exact hmain.1

lemma decode_correct {e : Nat} {m y : List F} (hm : m ≠ []) (he : 1 ≤ e)
    (hn : m.length + 2 * e ≤ 67) (hy : y.length = m.length + 2 * e)
    (herr : ((Finset.range (m.length + 2 * e)).filter fun i =>
      ¬ y.getD i 0 = polyEval m (Nat.cast i)).card ≤ e) :
    decode e y = some m := by
  have hm1 : 1 ≤ m.length := List.length_pos.mpr hm
  obtain ⟨z, hz⟩ := bw_exists hm he hy herr
  obtain ⟨hall, hquot⟩ := decode_sound_step hm he hn hy herr hz
  unfold decode
  rw [if_neg (by omega : ¬ y.length < 2 * e)]
  dsimp only
  rw [show y.length - 2 * e = m.length from by omega, hz]
  dsimp only
  rw [if_pos hall, hquot]

/-! ### Helper lemmas: lifting decode correctness to strings -/

lemma diffCount_nil {α : Type} [DecidableEq α] (ys : List α) : diffCount [] ys = 0 := rfl

lemma diffCount_cons {α : Type} [DecidableEq α] (a b : α) (xs ys : List α) :
    diffCount (a :: xs) (b :: ys) = (if a = b then 0 else 1) + diffCount xs ys := rfl

lemma diffCount_comm {α : Type} [DecidableEq α] : ∀ xs ys : List α,
    diffCount xs ys = diffCount ys xs := by
  intro xs
  induction xs with
  | nil =>
    intro ys
    cases ys with
    | nil => rfl
    | cons b ys => rfl
  | cons a xs ih =>
    intro ys
    cases ys with
    | nil => rfl
    | cons b ys =>
      rw [diffCount_cons, diffCount_cons, ih ys]
      congr 1
      by_cases hab : a = b
      · rw [if_pos hab, if_pos hab.symm]
      · rw [if_neg hab, if_neg fun hba => hab hba.symm]

lemma diffCount_le_of_str : ∀ {s t : List Char} {v w : List F},
    str_to_c67 s = some v → str_to_c67 t = some w → s.length = t.length →
    diffCount v w ≤ diffCount s t := by
  intro s
  induction s with
  | nil =>
    intro t v w hs ht hlen
    injection hs with hs
    subst hs
    simp [diffCount]
  | cons a s ih =>
    intro t v w hs ht hlen
    cases t with
    | nil => simp at hlen
    | cons b t =>
      unfold str_to_c67 at hs ht
      cases hac : charToF a with
      | none => rw [hac] at hs; cases hs
      | some x =>
        rw [hac] at hs
        cases hsc : str_to_c67 s with
        | none => rw [hsc] at hs; cases hs
        | some vs =>
          rw [hsc] at hs
          injection hs with hs
          subst hs
          cases hbc : charToF b with
          | none => rw [hbc] at ht; cases ht
          | some z =>
            rw [hbc] at ht
            cases htc : str_to_c67 t with
            | none => rw [htc] at ht; cases ht
            | some ws =>
              rw [htc] at ht
              injection ht with ht
              subst ht
              rw [diffCount_cons, diffCount_cons]
              have hrec := ih hsc htc (by simpa using hlen)
              have hhead : (if x = z then 0 else 1) ≤ (if a = b then 0 else 1) := by
                by_cases hab : a = b
                · have hxz : x = z := by
                    subst hab
                    rw [hac] at hbc
                    injection hbc
                  rw [if_pos hxz, if_pos hab]
                · split_ifs <;> omega
              omega

lemma card_filter_range (n : Nat) (p : Nat → Prop) [DecidablePred p] :
    ((Finset.range n).filter p).card =
      ((List.range n).filter fun i => decide (p i)).length := by
  rfl

lemma diffCount_eq_filter_length {α : Type} [DecidableEq α] (d : α) :
    ∀ (xs ys : List α), xs.length = ys.length →
    diffCount xs ys =
      ((List.range xs.length).filter fun i =>
        decide (¬ xs.getD i d = ys.getD i d)).length := by
  intro xs
  induction xs with
  | nil => intro ys h; rfl
  | cons a xs ih =>
    intro ys h
    cases ys with
    | nil => simp at h
    | cons b ys =>
      rw [diffCount_cons, ih ys (by simpa using h)]
      rw [List.length_cons, List.range_succ_eq_map, List.filter_cons, List.filter_map]
      have hfun : ((fun i => decide (¬ (a :: xs).getD i d = (b :: ys).getD i d)) ∘ Nat.succ)
          = fun i => decide (¬ xs.getD i d = ys.getD i d) := by
        funext i
        rfl
      rw [hfun]
      by_cases hab : a = b
      · rw [if_pos hab, if_neg (by simp [hab])]
        simp
      · rw [if_neg hab, if_pos (by simp [hab])]
        simp [Nat.add_comm]

lemma diffCount_eq_card {α : Type} [DecidableEq α] (d : α) (xs ys : List α)
    (h : xs.length = ys.length) :
    ((Finset.range xs.length).filter fun i => ¬ xs.getD i d = ys.getD i d).card =
      diffCount xs ys := by
  rw [card_filter_range, diffCount_eq_filter_length d xs ys h]

lemma codeword_getD {mf : List F} {n i : Nat} (hi : i < n) :
    ((List.range n).map fun j : Nat => polyEval mf (Nat.cast j)).getD i 0 =
      polyEval mf (Nat.cast i) := by
  rw [List.getD_eq_getElem?_getD,
    List.getElem?_eq_getElem (by simpa using hi :
      i < ((List.range n).map fun j : Nat => polyEval mf (Nat.cast j)).length)]
  simp

lemma str_to_c67_ne_nil {s : List Char} {v : List F} (hs : str_to_c67 s = some v)
    (hne : s ≠ []) : v ≠ [] := by
  intro hv
  subst hv
  have h1 := str_to_c67_length hs
  cases s with
  | nil => exact hne rfl
  | cons a t => simp at h1

lemma my_encode_ok_char {e : Nat} {m : List Char} {mf : List F}
    (hm : is_valid_message m = true) (hms : str_to_c67 m = some mf)
    (hlen : m.length + 2 * e ≤ 67) :
    my_encode e m = Except.ok (c67_to_str ((List.range (mf.length + 2 * e)).map
      fun i : Nat => polyEval mf (Nat.cast i))) := by
  have hmlen : mf.length = m.length := str_to_c67_length hms
  have hmfne : mf ≠ [] := str_to_c67_ne_nil hms (is_valid_message_ne_nil hm)
  unfold my_encode
  rw [hms]
  dsimp only
  unfold encode
  rw [if_neg (by simpa using hmfne), if_neg (by omega : ¬ 67 < mf.length + 2 * e)]

lemma my_decode_of_decode {e : Nat} {mstr cstr : List Char} {mf y : List F}
    (hms : str_to_c67 mstr = some mf) (hcs : str_to_c67 cstr = some y)
    (hmfle : mf.length + 2 * e = y.length)
    (hdec : decode e y = some mf) :
    my_decode e cstr = Except.ok mstr := by
  unfold my_decode
  rw [hcs]
  dsimp only
  rw [hdec]
  dsimp only
  have hc2len : (mf ++ y.drop mf.length).length = y.length := by
    simp
    omega
  rw [hc2len, show y.length - 2 * e = mf.length from by omega, List.take_left,
    c67_to_str_str_to_c67 hms]

/-! ### Claim theorems: the round-trip guarantees -/

/-- C1: for every error budget e >= 1 and every valid message whose
length satisfies length(m) + 2e <= 67, decoding the uncorrupted
encoding returns the original message. -/
theorem C1_roundtrip_zero_corruption (e : Nat) (m enc : List Char)
    (he : 1 ≤ e) (hm : is_valid_message m = true) (hlen : m.length + 2 * e ≤ 67)
    (henc : my_encode e m = Except.ok enc) :
    my_decode e enc = Except.ok m := by
  obtain ⟨mf, hms⟩ := str_to_c67_isSome (is_valid_message_chars hm)
  have hmlen : mf.length = m.length := str_to_c67_length hms
  have hmfne : mf ≠ [] := str_to_c67_ne_nil hms (is_valid_message_ne_nil hm)
  have hencw := my_encode_ok_char hm hms hlen
  rw [henc] at hencw
  injection hencw with hencstr
  have hencs : str_to_c67 enc =
      some ((List.range (mf.length + 2 * e)).map fun i : Nat =>
        polyEval mf (Nat.cast i)) := by
    rw [hencstr]
    exact str_to_c67_c67_to_str _
  have hwlen : ((List.range (mf.length + 2 * e)).map fun i : Nat =>
      polyEval mf (Nat.cast i)).length = mf.length + 2 * e := by
    simp
  have herr : ((Finset.range (mf.length + 2 * e)).filter fun i =>
      ¬ ((List.range (mf.length + 2 * e)).map fun j : Nat =>
        polyEval mf (Nat.cast j)).getD i 0 = polyEval mf (Nat.cast i)).card ≤ e := by
    have hempty : ((Finset.range (mf.length + 2 * e)).filter fun i =>
        ¬ ((List.range (mf.length + 2 * e)).map fun j : Nat =>
          polyEval mf (Nat.cast j)).getD i 0 = polyEval mf (Nat.cast i)) = ∅ := by
      apply Finset.filter_false_of_mem
      intro i hi
      rw [codeword_getD (Finset.mem_range.mp hi)]
      exact fun hcon => hcon rfl
    rw [hempty]
    simp
  have hdec := decode_correct hmfne he (by omega) hwlen herr
  exact my_decode_of_decode hms hencs (by omega) hdec

set_option maxRecDepth 40000 in
/-- Witness for C1 at the concrete message "hi" with error budget 1. -/
theorem C1_witness : my_decode 1 "hpxF".toList = Except.ok "hi".toList :=
  C1_roundtrip_zero_corruption 1 "hi".toList "hpxF".toList (by decide) (by decide)
    (by decide) (by decide)

/-- C2: for every error budget e >= 1 and valid message with
length(m) + 2e <= 67, decoding any corruption of the encoding in at
most e positions (each corrupted position holding some other alphabet
character) returns the original message. -/
theorem C2_roundtrip_bounded_corruption (e : Nat) (m enc cor : List Char)
    (he : 1 ≤ e) (hm : is_valid_message m = true) (hlen : m.length + 2 * e ≤ 67)
    (henc : my_encode e m = Except.ok enc)
    (hcv : is_valid_message cor = true) (hclen : cor.length = enc.length)
    (hdiff : diffCount enc cor ≤ e) :
    my_decode e cor = Except.ok m := by
  obtain ⟨mf, hms⟩ := str_to_c67_isSome (is_valid_message_chars hm)
  have hmlen : mf.length = m.length := str_to_c67_length hms
  have hmfne : mf ≠ [] := str_to_c67_ne_nil hms (is_valid_message_ne_nil hm)
  have hencw := my_encode_ok_char hm hms hlen
  rw [henc] at hencw
  injection hencw with hencstr
  have hencs : str_to_c67 enc =
      some ((List.range (mf.length + 2 * e)).map fun i : Nat =>
        polyEval mf (Nat.cast i)) := by
    rw [hencstr]
    exact str_to_c67_c67_to_str _
  have henclen : enc.length = mf.length + 2 * e := by
    rw [hencstr, c67_to_str_length]
    simp
  obtain ⟨y, hys⟩ := str_to_c67_isSome (is_valid_message_chars hcv)
  have hylen : y.length = mf.length + 2 * e := by
    rw [str_to_c67_length hys, hclen, henclen]
  have hdiffF : diffCount y
      ((List.range (mf.length + 2 * e)).map fun i : Nat => polyEval mf (Nat.cast i)) ≤
        diffCount cor enc :=
    diffCount_le_of_str hys hencs (by rw [hclen])
  have hcomm : diffCount cor enc = diffCount enc cor := diffCount_comm _ _
  have hcardeq := diffCount_eq_card 0 y
    ((List.range (mf.length + 2 * e)).map fun i : Nat => polyEval mf (Nat.cast i))
    (by rw [hylen]; simp)
  rw [hylen] at hcardeq
  have hcongr : ((Finset.range (mf.length + 2 * e)).filter fun i =>
      ¬ y.getD i 0 = polyEval mf (Nat.cast i)) =
        ((Finset.range (mf.length + 2 * e)).filter fun i =>
          ¬ y.getD i 0 = ((List.range (mf.length + 2 * e)).map fun j : Nat =>
            polyEval mf (Nat.cast j)).getD i 0) := by
    apply Finset.filter_congr
    intro i hi
    rw [codeword_getD (Finset.mem_range.mp hi)]
  have herr : ((Finset.range (mf.length + 2 * e)).filter fun i =>
      ¬ y.getD i 0 = polyEval mf (Nat.cast i)).card ≤ e := by
    rw [hcongr, hcardeq]
    omega
  have hdec := decode_correct hmfne he (by omega) hylen herr
  exact my_decode_of_decode hms hys (by omega) hdec

set_option maxRecDepth 40000 in
/-- Witness for C2: the encoding of "hi" with e = 1 is "hpxF";
corrupting its first character to i still decodes to "hi". -/
theorem C2_witness : my_decode 1 "ipxF".toList = Except.ok "hi".toList :=
  C2_roundtrip_bounded_corruption 1 "hi".toList "hpxF".toList "ipxF".toList
    (by decide) (by decide) (by decide) (by decide) (by decide) (by decide) (by decide)

lemma encode_ok_length {e : Nat} {msg v : List F} (hne : msg ≠ [])
    (h : encode e msg = Except.ok v) : v.length = msg.length + 2 * e := by
  unfold encode at h
  rw [if_neg (by simpa using hne)] at h
  split_ifs at h
  injection h with h
  rw [← h, List.length_map, List.length_range]

lemma my_encode_ok_length {e : Nat} {m v : List Char} (hm : is_valid_message m = true)
    (h : my_encode e m = Except.ok v) : v.length = m.length + 2 * e := by
  obtain ⟨c, hc⟩ := str_to_c67_isSome (is_valid_message_chars hm)
  unfold my_encode at h
  rw [hc] at h
  dsimp only at h
  cases he : encode e c with
  | error err => rw [he] at h; cases h
  | ok w =>
    rw [he] at h
    dsimp only at h
    injection h with h
    have hcne : c ≠ [] := by
      intro hcnil
      subst hcnil
      have hlen0 := str_to_c67_length hc
      have hmne := is_valid_message_ne_nil hm
      cases m with
      | nil => exact hmne rfl
      | cons a s => simp at hlen0
    rw [← h, c67_to_str_length, encode_ok_length hcne he, str_to_c67_length hc]

lemma clamp_bounds (x : Int) : 1 ≤ clamp x 1 50 ∧ clamp x 1 50 ≤ 50 := by
  unfold clamp
  split_ifs <;> omega

lemma errors_input_errors {st : State} {p : Option Int} {st' : State}
    (h : errors_input st p = some st') :
    st'.errors = (p.map fun x => clamp x 1 50).getD st.errors := by
  unfold errors_input at h
  dsimp only at h
  split_ifs at h with h1 h2
  · injection h with h; rw [← h]
  · dsimp only at h; injection h with h; rw [← h]
  · cases henc : my_encode ((p.map fun x => clamp x 1 50).getD st.errors).toNat
      st.original with
    | ok w =>
      rw [henc] at h
      dsimp only at h
      injection h with h
      rw [← h]
    | error err => rw [henc] at h; cases h

lemma on_original_change_errors {st : State} {new : List Char} {st' : State}
    (h : on_original_change st new = some st') : st'.errors = st.errors := by
  unfold on_original_change at h
  split_ifs at h with h1 h2
  · injection h with h; rw [← h]
  · dsimp only at h; injection h with h; rw [← h]
  · cases henc : my_encode st.errors.toNat new with
    | ok w =>
      rw [henc] at h
      dsimp only at h
      injection h with h
      rw [← h]
    | error err => rw [henc] at h; cases h

/-! ### Claim theorems for the UI layer and the alphabet -/

/-- C5: str_to_c67 and c67_to_str implement a fixed bijection between
the 67-symbol alphabet (lowercase a-z to 0..25, uppercase A-Z to
26..51, digits 0-9 to 52..61, and the five punctuation marks to
62..66) and the field values 0..66: converting a fully-valid string to
field elements and back is the identity, converting any field-element
sequence to a string and back is the identity, and the full alphabet in
order maps exactly to 0..66. -/
theorem C5_alphabet_bijection :
    (∀ s : List Char, (∀ c ∈ s, is_valid_char c = true) →
      ∃ v, str_to_c67 s = some v ∧ c67_to_str v = s) ∧
    (∀ v : List F, str_to_c67 (c67_to_str v) = some v) ∧
    str_to_c67
        "abcdefghijklmnopqrstuvwxyzABCDEFGHIJKLMNOPQRSTUVWXYZ0123456789_-.,/".toList =
      some ((List.range 67).map fun i => (i : F)) := by
  refine ⟨?_, str_to_c67_c67_to_str, by decide⟩
  intro s hs
  obtain ⟨v, hv⟩ := str_to_c67_isSome hs
  exact ⟨v, hv, c67_to_str_str_to_c67 hv⟩

/-- Witness for C5 at a concrete string touching all four character
classes. -/
theorem C5_witness :
    ∃ v, str_to_c67 "aZ9_".toList = some v ∧ c67_to_str v = "aZ9_".toList :=
  C5_alphabet_bijection.1 "aZ9_".toList (by decide)

/-- C3: encoding a valid message whose requested codeword length
k + 2e exceeds the field size 67 fails with RedundancyTooLarge; no
truncated or wrapped output is ever produced. -/
theorem C3_over_budget_rejected (e : Nat) (m : List Char)
    (hm : is_valid_message m = true) (hlen : 67 < m.length + 2 * e) :
    my_encode e m = Except.error Err.redundancyTooLarge := by
  obtain ⟨c, hc⟩ := str_to_c67_isSome (is_valid_message_chars hm)
  have hclen : c.length = m.length := str_to_c67_length hc
  have hcne : ¬(c.isEmpty = true) := by
    have hmne := is_valid_message_ne_nil hm
    intro hemp
    rw [List.isEmpty_iff] at hemp
    subst hemp
    cases m with
    | nil => exact hmne rfl
    | cons a s => simp at hclen
  unfold my_encode
  rw [hc]
  dsimp only
  unfold encode
  rw [if_neg hcne, if_pos (by omega : 67 < c.length + 2 * e)]

/-- Witness for C3: a 10-character message with error budget 30
requires 70 > 67 codeword symbols. -/
theorem C3_witness :
    my_encode 30 "aaaaaaaaaa".toList = Except.error Err.redundancyTooLarge :=
  C3_over_budget_rejected 30 "aaaaaaaaaa".toList (by decide) (by decide)

/-- C4: the encoded string of a valid message has length
length(m) + 2e, and a successful decode of a codeword string c returns
a string of length length(c) - 2e. -/
theorem C4_length_invariant :
    (∀ (e : Nat) (m v : List Char), is_valid_message m = true →
      my_encode e m = Except.ok v → v.length = m.length + 2 * e) ∧
    (∀ (e : Nat) (c r : List Char), my_decode e c = Except.ok r →
      r.length = c.length - 2 * e) := by
  constructor
  · intro e m v hm h
    exact my_encode_ok_length hm h
  · intro e c r h
    unfold my_decode at h
    cases hc : str_to_c67 c with
    | none => rw [hc] at h; cases h
    | some cf =>
      rw [hc] at h
      dsimp only at h
      cases hd : decode e cf with
      | none => rw [hd] at h; cases h
      | some m =>
        rw [hd] at h
        dsimp only at h
        injection h with h
        have hm := decode_length hd
        have hcf := str_to_c67_length hc
        have hk : m.length ≤ cf.length := by omega
        rw [← h, c67_to_str_length, List.length_take, List.length_append,
          List.length_drop, hm, hcf]
        omega

set_option maxRecDepth 20000 in
/-- Witness for C4: both length invariants at the concrete message
"hi" with error budget 1. -/
theorem C4_witness :
    ("hpxF".toList.length = "hi".toList.length + 2 * 1 ∧
      my_encode 1 "hi".toList = Except.ok "hpxF".toList) ∧
    "hi".toList.length = "hpxF".toList.length - 2 * 1 := by
  refine ⟨⟨?_, by decide⟩, ?_⟩
  · exact C4_length_invariant.1 1 "hi".toList "hpxF".toList (by decide) (by decide)
  · exact C4_length_invariant.2 1 "hpxF".toList "hi".toList (by decide)

/-- C6: when an edit of the encoded field passes validation but decoding
fails, the state reports the error, clears the original field rather
than guessing, and stores the entered value in the encoded field. -/
theorem C6_decode_error_state (st : State) (new : List Char)
    (hvalid : is_valid_message new = true)
    (herr : my_decode st.errors.toNat new = Except.error ()) :
    on_encoded_change st new =
      { st with original := [], is_error := true, encoded := new } := by
  unfold on_encoded_change
  rw [hvalid]
  simp only [Bool.not_true, Bool.false_eq_true, if_false, herr]

/-- Witness for C6: a length-2 codeword cannot be decoded with error
budget 2 (it is shorter than 2e), so the handler records the error. -/
theorem C6_witness :
    on_encoded_change State.default "hi".toList =
      { State.default with original := [], is_error := true, encoded := "hi".toList } :=
  C6_decode_error_state State.default "hi".toList (by decide) (by decide)

/-- C7: a non-empty input containing a character outside the alphabet
is rejected by both field handlers: only the rerender flag hack is
toggled and errors, original, encoded and is_error are unchanged. -/
theorem C7_invalid_input_rejected (st : State) (new : List Char)
    (hne : new ≠ []) (hbad : ∃ c ∈ new, is_valid_char c = false) :
    on_original_change st new = some { st with hack := !st.hack } ∧
    on_encoded_change st new = { st with hack := !st.hack } := by
  have hval : is_valid_message new = false := by
    obtain ⟨c, hc, hcf⟩ := hbad
    unfold is_valid_message
    cases hall2 : new.all is_valid_char with
    | false => simp
    | true =>
      exfalso
      have := (List.all_eq_true.mp hall2) c hc
      rw [hcf] at this
      cases this
  have hne2 : new.isEmpty = false := by
    cases new with
    | nil => exact absurd rfl hne
    | cons a s => rfl
  constructor
  · unfold on_original_change
    rw [hne2, hval]
    rfl
  · unfold on_encoded_change
    rw [hval]
    rfl

/-- Witness for C7 at the concrete invalid input "a b" (space is not in
the alphabet). -/
theorem C7_witness :
    on_original_change State.default "a b".toList =
      some { State.default with hack := !State.default.hack } ∧
    on_encoded_change State.default "a b".toList =
      { State.default with hack := !State.default.hack } :=
  C7_invalid_input_rejected State.default "a b".toList (by decide)
    ⟨' ', by decide, by decide⟩

/-- C8: the stored error budget starts at 2; an errors-input event
leaves it unchanged when the text does not parse and otherwise sets it
to clamp(parsed, 1, 50); it therefore always stays in [1, 50], and the
two message handlers never change it. -/
theorem C8_error_budget_invariant :
    State.default.errors = 2 ∧
    (∀ st st', errors_input st none = some st' → st'.errors = st.errors) ∧
    (∀ st x st', errors_input st (some x) = some st' → st'.errors = clamp x 1 50) ∧
    (∀ st p st', 1 ≤ st.errors → st.errors ≤ 50 → errors_input st p = some st' →
      1 ≤ st'.errors ∧ st'.errors ≤ 50) ∧
    (∀ st new st', on_original_change st new = some st' → st'.errors = st.errors) ∧
    (∀ st new, (on_encoded_change st new).errors = st.errors) := by
  refine ⟨rfl, ?_, ?_, ?_, ?_, ?_⟩
  · intro st st' h
    rw [errors_input_errors h]
    rfl
  · intro st x st' h
    rw [errors_input_errors h]
    rfl
  · intro st p st' hlo hhi h
    rw [errors_input_errors h]
    cases p with
    | none => exact ⟨hlo, hhi⟩
    | some x => exact clamp_bounds x
  · intro st new st' h
    exact on_original_change_errors h
  · intro st new
    unfold on_encoded_change
    split_ifs with h1
    · rfl
    · cases my_decode st.errors.toNat new with
      | ok decoded => rfl
      | error err => rfl

/-- Witness for C8: a concrete over-range event clamps 99 to 50 inside
[1, 50]. -/
theorem C8_witness :
    ∃ st', errors_input State.default (some 99) = some st' ∧
      st'.errors = clamp 99 1 50 ∧ 1 ≤ st'.errors ∧ st'.errors ≤ 50 := by
  refine ⟨{ State.default with errors := 50, hack := true }, by decide, ?_, ?_⟩
  · exact C8_error_budget_invariant.2.2.1 State.default 99 _ (by decide)
  · exact C8_error_budget_invariant.2.2.2.1 State.default (some 99) _
      (by decide) (by decide) (by decide)

/-- C9: entering the empty original message sets both message fields to
the empty string and clears the error flag; no redundancy symbols are
generated for an empty message. -/
theorem C9_empty_message (st : State) :
    on_original_change st [] =
      some { st with original := [], encoded := [], is_error := false } := rfl

/-- C10: clearing the encoded field is rejected as invalid input, not
treated as an empty codeword: the empty string fails validation and the
handler only toggles the rerender flag, leaving original, encoded and
is_error unchanged, so decode is never invoked on a zero-length
codeword. -/
theorem C10_empty_codeword_rejected (st : State) :
    is_valid_message [] = false ∧
    on_encoded_change st [] = { st with hack := !st.hack } :=
  ⟨rfl, rfl⟩

end Berlewelch
